import Mathlib

/-!
Verification of the Crowd_Count YOLOv8 post-processing pipeline
(`src/utils/modelUtils.ts`): class label table, IOU, greedy NMS and
`parseYOLOv8Output`.  Float32 values are modelled as rationals; JS `sort`
with comparator `b.conf - a.conf` is modelled as a stable descending
insertion sort; JS division is rational division (a separate `jsDiv`
tracks the one place where JS would produce a non-finite value).
-/

set_option maxRecDepth 10000

namespace CrowdCount

/-- The 80-entry COCO class label table (`CLASS_LABELS` in the source). -/
def CLASS_LABELS : List String :=
  ["person", "bicycle", "car", "motorcycle", "airplane", "bus", "train", "truck", "boat", "traffic light",
   "fire hydrant", "stop sign", "parking meter", "bench", "bird", "cat", "dog", "horse", "sheep", "cow",
   "elephant", "bear", "zebra", "giraffe", "backpack", "umbrella", "handbag", "tie", "suitcase", "frisbee",
   "skis", "snowboard", "sports ball", "kite", "baseball bat", "baseball glove", "skateboard", "surfboard",
   "tennis racket", "bottle", "wine glass", "cup", "fork", "knife", "spoon", "bowl", "banana", "apple",
   "sandwich", "orange", "broccoli", "carrot", "hot dog", "pizza", "donut", "cake", "chair", "couch",
   "potted plant", "bed", "dining table", "toilet", "tv", "laptop", "mouse", "remote", "keyboard", "cell phone",
   "microwave", "oven", "toaster", "sink", "refrigerator", "book", "clock", "vase", "scissors", "teddy bear",
   "hair drier", "toothbrush"]

/-- An axis-aligned box `[x1, y1, x2, y2]` (the 4-tuples pushed by the source). -/
structure Box where
  x1 : ℚ
  y1 : ℚ
  x2 : ℚ
  y2 : ℚ
deriving DecidableEq, Repr

/-- The `Detection` record of the source: box, confidence, classId. -/
structure Detection where
  box : Box
  confidence : ℚ
  classId : Nat
deriving DecidableEq, Repr

/-- `(x2 - x1) * (y2 - y1)`, the `box1Area` and `box2Area` of `calculateIOU`. -/
def boxArea (b : Box) : ℚ := (b.x2 - b.x1) * (b.y2 - b.y1)

/-- The clamped axis-aligned overlap `interArea` computed inside `calculateIOU`. -/
def interArea (b1 b2 : Box) : ℚ :=
  max 0 (min b1.x2 b2.x2 - max b1.x1 b2.x1) * max 0 (min b1.y2 b2.y2 - max b1.y1 b2.y1)

/-- Denominator of the IOU quotient: `box1Area + box2Area - interArea`. -/
def iouDenom (b1 b2 : Box) : ℚ := boxArea b1 + boxArea b2 - interArea b1 b2

/-- `calculateIOU` from the source, with JS float division modelled as rational
division (there is no zero-denominator guard in the source; `jsDiv` below
tracks where JS would leave the finite numbers). -/
def calculateIOU (box1 box2 : Box) : ℚ :=
  interArea box1 box2 / iouDenom box1 box2

/-- JS division restricted to the finite outcomes: dividing by zero yields
`NaN` or an infinity in JS, never a (finite) number, so it is `none` here. -/
def jsDiv (a b : ℚ) : Option ℚ := if b = 0 then none else some (a / b)

/-- `calculateIOU` with the division-by-zero behaviour of JS made explicit:
`none` exactly when the unguarded denominator of the source is zero. -/
def calculateIOUjs (box1 box2 : Box) : Option ℚ :=
  jsDiv (interArea box1 box2) (iouDenom box1 box2)

/-- One entry of the list `nonMaxSuppression` returns:
`{ box, confidence, originalIndex }`. -/
structure SelEntry where
  box : Box
  confidence : ℚ
  originalIndex : Nat
deriving DecidableEq, Repr

/-- Insert a keyed element into a descending-sorted list, after all strictly
greater keys and before equal keys; together with `isortP` this is the stable
descending sort that models JS `Array.prototype.sort` (stable per ES2019)
with comparator `(a, b) => b.conf - a.conf`. -/
def insertDesc {α : Type} (p : ℚ × α) : List (ℚ × α) → List (ℚ × α)
  | [] => [p]
  | q :: qs => if p.1 < q.1 then q :: insertDesc p qs else p :: q :: qs

/-- Stable insertion sort, descending by the rational key. -/
def isortP {α : Type} : List (ℚ × α) → List (ℚ × α)
  | [] => []
  | p :: ps => insertDesc p (isortP ps)

/-- `confidences.map((conf, idx) => ({conf, idx}))`: pair each confidence with
its index, starting at `k`. -/
def withIndices : List ℚ → Nat → List (ℚ × Nat)
  | [], _ => []
  | c :: cs, k => (c, k) :: withIndices cs (k + 1)

/-- The `indices` array of `nonMaxSuppression`: indices sorted by confidence,
descending, stable. -/
def sortIndices (confs : List ℚ) : List Nat :=
  (isortP (withIndices confs 0)).map (fun p => p.2)

/-- Default box used for out-of-range index lookups (never reached when the
box and confidence lists are parallel, as in every call site). -/
def defBox : Box := ⟨0, 0, 0, 0⟩

/-- The double loop of `nonMaxSuppression`: walk the sorted indices, skip
suppressed ones, select the rest, and after each selection add every later
index whose IOU with the selected box exceeds the threshold to the
suppressed set (re-marking an already-suppressed index is a no-op, so the
JS inner-loop `continue` does not change the resulting set). -/
def nmsGo (boxes : List Box) (confs : List ℚ) (iouThreshold : ℚ) :
    List Nat → List Nat → List SelEntry
  | [], _ => []
  | idx :: rest, sup =>
    if idx ∈ sup then
      nmsGo boxes confs iouThreshold rest sup
    else
      ⟨boxes.getD idx defBox, confs.getD idx 0, idx⟩ ::
        nmsGo boxes confs iouThreshold rest
          (sup ++ rest.filter (fun j =>
            decide (iouThreshold < calculateIOU (boxes.getD idx defBox) (boxes.getD j defBox))))

/-- `nonMaxSuppression(boxes, confidences, iouThreshold)` from the source. -/
def nonMaxSuppression (boxes : List Box) (confidences : List ℚ) (iouThreshold : ℚ) :
    List SelEntry :=
  if boxes.isEmpty then []
  else nmsGo boxes confidences iouThreshold (sortIndices confidences) []

/-- `Math.max(...l)` for a nonempty list (the empty case, `-Infinity` in JS,
is never reached: the caller only evaluates it on nonempty class-score
lists). -/
def listMax : List ℚ → ℚ
  | [] => 0
  | x :: xs => xs.foldl max x

/-- `l.indexOf(a)`: index of the first occurrence.  The JS miss value `-1`
is never reached at the call site (the argument is `Math.max` of the list,
hence a member). -/
def jsIndexOf (a : ℚ) : List ℚ → Nat
  | [] => 0
  | x :: xs => if x = a then 0 else jsIndexOf a xs + 1

/-- The `class_confs` rest-pattern of the destructuring
`[x_center_norm, y_center_norm, w_norm, h_norm, obj_conf, ...class_confs]`:
everything after the first five values of the record slice. -/
def classScores (s : List ℚ) : List ℚ := s.drop 5

/-- `classId = class_confs.indexOf(Math.max(...class_confs))`. -/
def recClassId (s : List ℚ) : Nat :=
  jsIndexOf (listMax (classScores s)) (classScores s)

/-- `totalConfidence = obj_conf * class_confs[classId]`. -/
def recConfidence (s : List ℚ) : ℚ :=
  s.getD 4 0 * (classScores s).getD (recClassId s) 0

/-- The coordinate mapper of `parseYOLOv8Output`.  Note `y2m`: the source
computes `y2_model = y_center_model + h_norm / 2`, i.e. it adds half of the
still-normalized height instead of half of the denormalized height; the
model reproduces that line faithfully. -/
def mapBox (origW origH m : ℚ) (s : List ℚ) : Box :=
  let xc := s.getD 0 0 * m
  let yc := s.getD 1 0 * m
  let wModel := s.getD 2 0 * m
  let hModel := s.getD 3 0 * m
  let x1m := xc - wModel / 2
  let y1m := yc - hModel / 2
  let x2m := xc + wModel / 2
  let y2m := yc + s.getD 3 0 / 2
  let scaleX := origW / m
  let scaleY := origH / m
  ⟨x1m * scaleX, y1m * scaleY, x2m * scaleX, y2m * scaleY⟩

/-- One iteration of the main loop of `parseYOLOv8Output` on a record slice.
A slice with fewer than 6 values cannot pass the filter in JS: with 5 values
`class_confs` is empty, so `indexOf` gives `-1`, the score lookup gives
`undefined` and the confidence is `NaN`; with fewer the destructured fields
themselves are `undefined`.  `NaN > threshold` is false, so the candidate is
dropped — modelled by the length guard. -/
def processRecord (confidenceThreshold origW origH m : ℚ) (s : List ℚ) :
    Option (Box × ℚ × Nat) :=
  if s.length < 6 then none
  else if confidenceThreshold < recConfidence s ∧
      CLASS_LABELS.getD (recClassId s) "" = "person" then
    some (mapBox origW origH m s, recConfidence s, recClassId s)
  else none

/-- Number of loop iterations: `numPredictions = data.length / 84` is float
division in JS and the loop runs while `i < numPredictions`, i.e.
`⌈length / 84⌉` times. -/
def numIterations (len : Nat) : Nat := (len + 83) / 84

/-- The record slices `data.slice(offset, offset + 84)` for each iteration
(the final slice is truncated when the length is not divisible by 84). -/
def recordSlices (data : List ℚ) : List (List ℚ) :=
  (List.range (numIterations data.length)).map (fun i => (data.drop (i * 84)).take 84)

/-- The parallel `boxes` / `confidences` / `classIds` arrays built by the main
loop, fused into one list of triples (the source pushes to the three arrays
at the same time, in loop order). -/
def candidates (data : List ℚ) (confidenceThreshold origW origH m : ℚ) :
    List (Box × ℚ × Nat) :=
  (recordSlices data).filterMap (processRecord confidenceThreshold origW origH m)

/-- `parseYOLOv8Output` from the source: build the candidate arrays, run NMS,
then rebuild `Detection`s, looking the classId up by `originalIndex`. -/
def parseYOLOv8Output (data : List ℚ) (originalWidth originalHeight : ℚ)
    (confidenceThreshold : ℚ := 1/4) (iouThreshold : ℚ := 9/20)
    (modelInputSize : ℚ := 640) : List Detection :=
  let cands := candidates data confidenceThreshold originalWidth originalHeight modelInputSize
  let boxes := cands.map (fun c => c.1)
  let confs := cands.map (fun c => c.2.1)
  let classIds := cands.map (fun c => c.2.2)
  (nonMaxSuppression boxes confs iouThreshold).map
    (fun e => ⟨e.box, e.confidence, classIds.getD e.originalIndex 0⟩)

theorem foldl_max_eq_or_mem : ∀ (xs : List ℚ) (a : ℚ),
    xs.foldl max a = a ∨ xs.foldl max a ∈ xs
  | [], _ => Or.inl rfl
  | x :: xs, a => by
    rcases foldl_max_eq_or_mem xs (max a x) with h | h
    · rcases max_choice a x with hm | hm
      · exact Or.inl (by rw [List.foldl_cons, h, hm])
      · exact Or.inr (by rw [List.foldl_cons, h, hm]; exact List.mem_cons_self x xs)
    · exact Or.inr (List.mem_cons_of_mem x h)

theorem le_foldl_max : ∀ (xs : List ℚ) (a : ℚ), a ≤ xs.foldl max a
  | [], _ => le_refl _
  | x :: xs, a => le_trans (le_max_left a x) (le_foldl_max xs (max a x))

theorem mem_le_foldl_max : ∀ (xs : List ℚ) (a x : ℚ), x ∈ xs → x ≤ xs.foldl max a
  | x :: xs, a, y, h => by
    rcases List.mem_cons.mp h with rfl | h
    · exact le_trans (le_max_right a y) (le_foldl_max xs (max a y))
    · exact mem_le_foldl_max xs (max a x) y h

theorem listMax_mem {l : List ℚ} (h : l ≠ []) : listMax l ∈ l := by
  match l with
  | x :: xs =>
    rcases foldl_max_eq_or_mem xs x with h1 | h1
    · rw [listMax, h1]; exact List.mem_cons_self x xs
    · exact List.mem_cons_of_mem x h1

theorem le_listMax {l : List ℚ} {x : ℚ} (h : x ∈ l) : x ≤ listMax l := by
  match l with
  | y :: ys =>
    rcases List.mem_cons.mp h with rfl | h1
    · exact le_foldl_max ys x
    · exact mem_le_foldl_max ys y x h1

theorem jsIndexOf_lt_length {a : ℚ} : ∀ {l : List ℚ}, a ∈ l → jsIndexOf a l < l.length
  | x :: xs, h => by
    by_cases hx : x = a
    · simp [jsIndexOf, hx]
    · have hm : a ∈ xs := by
        rcases List.mem_cons.mp h with rfl | h1
        · exact absurd rfl hx
        · exact h1
      simpa [jsIndexOf, hx] using jsIndexOf_lt_length hm

theorem getD_jsIndexOf {a : ℚ} : ∀ {l : List ℚ}, a ∈ l → l.getD (jsIndexOf a l) 0 = a
  | x :: xs, h => by
    by_cases hx : x = a
    · simp [jsIndexOf, hx]
    · have hm : a ∈ xs := by
        rcases List.mem_cons.mp h with rfl | h1
        · exact absurd rfl hx
        · exact h1
      simpa [jsIndexOf, hx] using getD_jsIndexOf hm

theorem getD_ne_of_lt_jsIndexOf {a : ℚ} :
    ∀ {l : List ℚ} {j : Nat}, j < jsIndexOf a l → l.getD j 0 ≠ a
  | x :: xs, j, hj => by
    by_cases hx : x = a
    · simp [jsIndexOf, hx] at hj
    · rw [jsIndexOf, if_neg hx] at hj
      match j with
      | 0 => simpa using hx
      | j + 1 =>
        simpa using getD_ne_of_lt_jsIndexOf (Nat.lt_of_succ_lt_succ hj)

theorem getD_mem_of_lt {l : List ℚ} {j : Nat} (h : j < l.length) : l.getD j 0 ∈ l := by
  rw [List.getD_eq_getElem?_getD, List.getElem?_eq_getElem h]
  exact List.getElem_mem h

/-- First-occurrence argmax: `k` is in range, carries a maximal value, and
every strictly earlier position carries a strictly smaller value. -/
def isFirstArgmax (l : List ℚ) (k : Nat) : Prop :=
  k < l.length ∧ (∀ j, j < l.length → l.getD j 0 ≤ l.getD k 0) ∧
    ∀ j, j < k → l.getD j 0 < l.getD k 0

theorem recClassId_isFirstArgmax {s : List ℚ} (h : classScores s ≠ []) :
    isFirstArgmax (classScores s) (recClassId s) := by
  set cls := classScores s with hcls
  have hmem : listMax cls ∈ cls := listMax_mem h
  have hk : recClassId s = jsIndexOf (listMax cls) cls := rfl
  have hgd : cls.getD (recClassId s) 0 = listMax cls := by
    rw [hk]; exact getD_jsIndexOf hmem
  refine ⟨by rw [hk]; exact jsIndexOf_lt_length hmem, ?_, ?_⟩
  · intro j hj
    rw [hgd]
    exact le_listMax (getD_mem_of_lt hj)
  · intro j hj
    rw [hk] at hj
    have hne : cls.getD j 0 ≠ listMax cls := getD_ne_of_lt_jsIndexOf hj
    have hjlen : j < cls.length := lt_trans hj (jsIndexOf_lt_length hmem)
    rw [hgd]
    exact lt_of_le_of_ne (le_listMax (getD_mem_of_lt hjlen)) hne

/-- Only index 0 of the 80-entry label table holds `"person"`. -/
theorem person_index_eq_zero {k : Nat} (h : CLASS_LABELS.getD k "" = "person") : k = 0 := by
  by_cases hk : k < 80
  · revert h
    revert hk
    revert k
    decide
  · exfalso
    have hlen : CLASS_LABELS.length = 80 := by decide
    rw [List.getD_eq_getElem?_getD, List.getElem?_eq_none (by omega)] at h
    exact absurd h (by decide)

/-- A single full 84-value record: centre `(0.5, 0.5)`, normalized size
`(0.2, 0.2)`, objectness 1, person score 1, all other class scores 0 —
the coordinate-mapping scenario of the specification. -/
def recC1 : List ℚ := [1/2, 1/2, 1/5, 1/5, 1, 1] ++ List.replicate 78 0

/-- A 90-value tensor (not divisible by 84): one full confident person record
followed by a truncated 6-value confident person record. -/
def dataC2 : List ℚ :=
  ([1/2, 1/2, 1/2, 1/2, 1, 1] ++ List.replicate 78 0) ++ [1/2, 1/2, 1/2, 1/2, 1, 1]

/-- A single full record whose normalized width and height are 0 (degenerate
zero-area box) with objectness 1 and person score 1. -/
def recC3 : List ℚ := [1/2, 1/2, 0, 0, 1, 1] ++ List.replicate 78 0

/-- A 6-value tensor: a truncated but confident person record. -/
def dataC10 : List ℚ := [1/2, 1/2, 1/2, 1/2, 1, 1]

/-- Claim C1 (code bug): on the specification's coordinate-mapping scenario
(centre `(0.5, 0.5)`, size `(0.2, 0.2)`, `modelInputSize = 640`,
`originalWidth = 1280`, `originalHeight = 960`) the code returns the box
`[512, 384, 768, 480.15]`, not the specified `[512, 384, 768, 576]`:
`y2` is computed from the *normalized* height (`y_center_px + h_norm / 2 =
320.1` in model space) instead of the denormalized half-height
(`y_center_px + h_px / 2 = 384`). -/
theorem c1_y2_mixes_normalized_height :
    parseYOLOv8Output recC1 1280 960 (1/4) (9/20) 640 =
      [⟨⟨512, 384, 768, 9603/20⟩, 1, 0⟩] ∧ ((9603 : ℚ)/20 ≠ 576) := by
  constructor
  · with_unfolding_all rfl
  · with_unfolding_all decide

/-- Claim C2 (counterexample): a 90-value tensor — length not divisible by 84
— does not fail: `parseYOLOv8Output` has no `MalformedTensor` path and
returns an ordinary `Detection` list (here even a nonempty one, from the
full first record; the truncated 6-value second record also produced a
candidate, suppressed by NMS as an exact duplicate). -/
theorem c2_counterexample :
    ¬ (84 ∣ dataC2.length) ∧
      parseYOLOv8Output dataC2 640 640 (1/4) (9/20) 640 =
        [⟨⟨160, 160, 480, 1281/4⟩, 1, 0⟩] := by
  constructor
  · decide
  · with_unfolding_all rfl

/-- Claim C3 (code bug): a candidate whose denormalized width and height are
both 0 (so `w_px ≤ 0` and `h_px ≤ 0`) is not dropped: the code has no
degenerate-box filter, and the zero-area box `[320, 320, 320, 320]` is
returned as a `Detection`. -/
theorem c3_degenerate_box_emitted :
    recC3.getD 2 0 * 640 ≤ 0 ∧ recC3.getD 3 0 * 640 ≤ 0 ∧
      parseYOLOv8Output recC3 640 640 (1/4) (9/20) 640 =
        [⟨⟨320, 320, 320, 320⟩, 1, 0⟩] := by
  refine ⟨by with_unfolding_all decide, by with_unfolding_all decide, ?_⟩
  with_unfolding_all rfl

/-- Claim C7 (counterexample): for two zero-area boxes the unguarded
denominator `area1 + area2 - interArea` of `calculateIOU` is zero, so the
JS quotient is `0 / 0 = NaN` — an undefined value, not the 0 the claim
asserts (`calculateIOUjs` returns `none` exactly where the division leaves
the finite numbers). -/
theorem c7_counterexample :
    boxArea ⟨0, 0, 0, 0⟩ = 0 ∧
      iouDenom ⟨0, 0, 0, 0⟩ ⟨0, 0, 0, 0⟩ = 0 ∧
      calculateIOUjs ⟨0, 0, 0, 0⟩ ⟨0, 0, 0, 0⟩ ≠ some 0 := by
  have heq : calculateIOUjs ⟨0, 0, 0, 0⟩ ⟨0, 0, 0, 0⟩ = none := by
    with_unfolding_all rfl
  refine ⟨by with_unfolding_all rfl, by with_unfolding_all rfl, ?_⟩
  rw [heq]
  intro h
  exact Option.noConfusion h

/-- Claim C10 (counterexample): a 6-value tensor (fewer than one full
84-value record) does not yield the empty list: the single truncated record
is still destructured, scores above the threshold, and produces a
detection. -/
theorem c10_counterexample :
    dataC10.length < 84 ∧
      parseYOLOv8Output dataC10 640 640 (1/4) (9/20) 640 =
        [⟨⟨160, 160, 480, 1281/4⟩, 1, 0⟩] ∧
      parseYOLOv8Output dataC10 640 640 (1/4) (9/20) 640 ≠ [] := by
  have heq : parseYOLOv8Output dataC10 640 640 (1/4) (9/20) 640 =
      [⟨⟨160, 160, 480, 1281/4⟩, 1, 0⟩] := by with_unfolding_all rfl
  refine ⟨by decide, heq, ?_⟩
  rw [heq]
  intro h
  exact List.noConfusion h

/-- A full 84-value prediction record used to count its class scores. -/
def recC8 : List ℚ := [1/2, 1/2, 1/5, 1/5, 1, 1] ++ List.replicate 78 0

/-- Claim C8 (counterexample): a full 84-value prediction record does not
carry 80 class scores: the destructuring consumes 4 box values plus one
objectness value, leaving 79 class scores, so the argmax the scorer
computes ranges over 79 values, not 80. -/
theorem c8_counterexample :
    recC8.length = 84 ∧ ¬ ((classScores recC8).length = 80) := by
  constructor <;> decide

/-- Claim C8 (amended: 79 class scores, not 80): for every full 84-value
record the scorer takes the 79 values after box and objectness as class
scores, picks `classId` as their first-occurrence argmax, computes
`combinedConfidence = objectness × classScores[classId]`, and retains the
candidate exactly when that confidence strictly exceeds the threshold and
the classId resolves to `"person"` (equivalently, is 0). -/
theorem c8_scorer_semantics (t w h m : ℚ) (s : List ℚ) (hs : s.length = 84) :
    (classScores s).length = 79 ∧
      isFirstArgmax (classScores s) (recClassId s) ∧
      recConfidence s = s.getD 4 0 * (classScores s).getD (recClassId s) 0 ∧
      ((∃ b, processRecord t w h m s = some (b, recConfidence s, recClassId s)) ↔
        (t < recConfidence s ∧ recClassId s = 0)) := by
  have hlen : (classScores s).length = 79 := by
    simp [classScores, hs]
  have hne : classScores s ≠ [] := by
    intro hnil
    rw [hnil] at hlen
    exact absurd hlen (by decide)
  refine ⟨hlen, recClassId_isFirstArgmax hne, rfl, ?_⟩
  have hguard : ¬ (s.length < 6) := by omega
  constructor
  · rintro ⟨b, hb⟩
    rw [processRecord, if_neg hguard] at hb
    by_cases hcond : t < recConfidence s ∧ CLASS_LABELS.getD (recClassId s) "" = "person"
    · exact ⟨hcond.1, person_index_eq_zero hcond.2⟩
    · rw [if_neg hcond] at hb
      exact Option.noConfusion hb
  · rintro ⟨hconf, hid⟩
    have hperson : CLASS_LABELS.getD (recClassId s) "" = "person" := by
      rw [hid]; decide
    refine ⟨mapBox w h m s, ?_⟩
    rw [processRecord, if_neg hguard, if_pos ⟨hconf, hperson⟩]

/-- Witness for `c8_scorer_semantics` at the concrete record `recC8`. -/
theorem c8_scorer_semantics_witness :
    (classScores recC8).length = 79 ∧
      isFirstArgmax (classScores recC8) (recClassId recC8) ∧
      recConfidence recC8 = recC8.getD 4 0 * (classScores recC8).getD (recClassId recC8) 0 ∧
      ((∃ b, processRecord (1/4) 1280 960 640 recC8 =
          some (b, recConfidence recC8, recClassId recC8)) ↔
        ((1/4 : ℚ) < recConfidence recC8 ∧ recClassId recC8 = 0)) :=
  c8_scorer_semantics (1/4) 1280 960 640 recC8 (by decide)

theorem getD_mem_of_lt' {α : Type} {l : List α} {j : Nat} (dflt : α) (h : j < l.length) :
    l.getD j dflt ∈ l := by
  rw [List.getD_eq_getElem?_getD, List.getElem?_eq_getElem h]
  exact List.getElem_mem h

theorem getD_map_of_lt {α β : Type} (f : α → β) {l : List α} {i : Nat}
    (h : i < l.length) (d1 : β) (d2 : α) :
    (l.map f).getD i d1 = f (l.getD i d2) := by
  rw [List.getD_eq_getElem?_getD, List.getD_eq_getElem?_getD,
    List.getElem?_eq_getElem (by simpa using h), List.getElem?_eq_getElem h]
  simp

theorem insertDesc_perm {α : Type} (p : ℚ × α) :
    ∀ l : List (ℚ × α), List.Perm (insertDesc p l) (p :: l)
  | [] => List.Perm.refl _
  | q :: qs => by
    rw [insertDesc]
    by_cases h : p.1 < q.1
    · rw [if_pos h]
      exact ((insertDesc_perm p qs).cons q).trans (List.Perm.swap p q qs)
    · rw [if_neg h]

theorem isortP_perm {α : Type} : ∀ l : List (ℚ × α), List.Perm (isortP l) l
  | [] => List.Perm.refl _
  | p :: ps => (insertDesc_perm p (isortP ps)).trans ((isortP_perm ps).cons p)

theorem withIndices_mem : ∀ {cs : List ℚ} {k : Nat} {p : ℚ × Nat},
    p ∈ withIndices cs k → k ≤ p.2 ∧ p.2 - k < cs.length ∧ cs.getD (p.2 - k) 0 = p.1
  | c :: cs, k, p, h => by
    rcases List.mem_cons.mp h with rfl | h
    · simp
    · obtain ⟨h1, h2, h3⟩ := withIndices_mem h
      refine ⟨by omega, by simp only [List.length_cons]; omega, ?_⟩
      have he : p.2 - k = (p.2 - (k + 1)) + 1 := by omega
      rw [he]
      simpa using h3

theorem mem_sortIndices {confs : List ℚ} {i : Nat} (h : i ∈ sortIndices confs) :
    i < confs.length ∧ confs.getD i 0 ∈ confs := by
  rw [sortIndices] at h
  obtain ⟨p, hp, rfl⟩ := List.mem_map.mp h
  obtain ⟨_, h2, _⟩ := withIndices_mem ((isortP_perm _).mem_iff.mp hp)
  have hlt : p.2 < confs.length := by omega
  exact ⟨hlt, getD_mem_of_lt' 0 hlt⟩

theorem nmsGo_mem {B : List Box} {C : List ℚ} {t : ℚ} :
    ∀ {L sup : List Nat} {e : SelEntry}, e ∈ nmsGo B C t L sup →
      e.originalIndex ∈ L ∧ e.originalIndex ∉ sup ∧
        e.box = B.getD e.originalIndex defBox ∧
        e.confidence = C.getD e.originalIndex 0
  | idx :: rest, sup, e, h => by
    rw [nmsGo] at h
    by_cases hs : idx ∈ sup
    · rw [if_pos hs] at h
      obtain ⟨h1, h2, h3, h4⟩ := nmsGo_mem h
      exact ⟨List.mem_cons_of_mem idx h1, h2, h3, h4⟩
    · rw [if_neg hs] at h
      rcases List.mem_cons.mp h with rfl | h
      · exact ⟨List.mem_cons_self _ _, hs, rfl, rfl⟩
      · obtain ⟨h1, h2, h3, h4⟩ := nmsGo_mem h
        exact ⟨List.mem_cons_of_mem idx h1,
          fun hc => h2 (List.mem_append.mpr (Or.inl hc)), h3, h4⟩

/-- Every detection returned by `parseYOLOv8Output` is, field by field, one
of the candidate triples buffered by the main loop (the NMS stage only
selects, never invents or rewrites entries, and the `originalIndex` lookup
into `classIds` is in range). -/
theorem detection_from_candidate {data : List ℚ} {w h t iou m : ℚ} {d : Detection}
    (hd : d ∈ parseYOLOv8Output data w h t iou m) :
    ∃ c ∈ candidates data t w h m,
      d.box = c.1 ∧ d.confidence = c.2.1 ∧ d.classId = c.2.2 := by
  simp only [parseYOLOv8Output] at hd
  obtain ⟨e, he, rfl⟩ := List.mem_map.mp hd
  rw [nonMaxSuppression] at he
  by_cases hemp : ((candidates data t w h m).map (fun c => c.1)).isEmpty
  · rw [if_pos hemp] at he
    exact absurd he (List.not_mem_nil e)
  · rw [if_neg hemp] at he
    obtain ⟨h1, _, h3, h4⟩ := nmsGo_mem he
    have hlt : e.originalIndex < (candidates data t w h m).length := by
      have := (mem_sortIndices h1).1
      simpa using this
    refine ⟨(candidates data t w h m).getD e.originalIndex (defBox, 0, 0),
      getD_mem_of_lt' _ hlt, ?_, ?_, ?_⟩
    · rw [h3, getD_map_of_lt _ hlt defBox (defBox, 0, 0)]
    · rw [h4, getD_map_of_lt _ hlt 0 (defBox, 0, 0)]
    · rw [getD_map_of_lt _ hlt 0 (defBox, 0, 0)]

theorem processRecord_some {t w h m : ℚ} {s : List ℚ} {c : Box × ℚ × Nat}
    (hp : processRecord t w h m s = some c) :
    6 ≤ s.length ∧ t < recConfidence s ∧
      CLASS_LABELS.getD (recClassId s) "" = "person" ∧
      c = (mapBox w h m s, recConfidence s, recClassId s) := by
  rw [processRecord] at hp
  by_cases hg : s.length < 6
  · rw [if_pos hg] at hp
    exact Option.noConfusion hp
  · rw [if_neg hg] at hp
    by_cases hcond : t < recConfidence s ∧ CLASS_LABELS.getD (recClassId s) "" = "person"
    · rw [if_pos hcond] at hp
      exact ⟨by omega, hcond.1, hcond.2, (Option.some.inj hp).symm⟩
    · rw [if_neg hcond] at hp
      exact Option.noConfusion hp

theorem recordSlices_subset {data : List ℚ} {s : List ℚ} (hs : s ∈ recordSlices data) :
    ∀ v ∈ s, v ∈ data := by
  rw [recordSlices] at hs
  obtain ⟨i, _, rfl⟩ := List.mem_map.mp hs
  intro v hv
  exact List.drop_subset _ data (List.take_subset _ _ hv)

/-- Per-candidate shape invariants: with tensor values in `[0, 1]` and
nonnegative scale parameters, every buffered candidate has an ordered box,
a confidence in `[0, 1]`, and classId 0. -/
theorem processRecord_invariants {t w h m : ℚ} {s : List ℚ} {c : Box × ℚ × Nat}
    (hp : processRecord t w h m s = some c)
    (hvals : ∀ v ∈ s, 0 ≤ v ∧ v ≤ 1) (hw : 0 ≤ w) (hh : 0 ≤ h) (hm : 0 ≤ m) :
    c.1.x1 ≤ c.1.x2 ∧ c.1.y1 ≤ c.1.y2 ∧ 0 ≤ c.2.1 ∧ c.2.1 ≤ 1 ∧ c.2.2 = 0 := by
  obtain ⟨hlen, _, hperson, rfl⟩ := processRecord_some hp
  have hv2 := hvals _ (getD_mem_of_lt' 0 (show 2 < s.length by omega))
  have hv3 := hvals _ (getD_mem_of_lt' 0 (show 3 < s.length by omega))
  have hv4 := hvals _ (getD_mem_of_lt' 0 (show 4 < s.length by omega))
  have hclslen : (classScores s).length = s.length - 5 := by simp [classScores]
  have hclsne : classScores s ≠ [] := by
    intro hnil
    rw [hnil] at hclslen
    simp at hclslen
    omega
  have hargs := recClassId_isFirstArgmax hclsne
  have hcls : (classScores s).getD (recClassId s) 0 ∈ s := by
    have hmem := getD_mem_of_lt' 0 hargs.1
    exact List.drop_subset 5 s hmem
  have hvc := hvals _ hcls
  have hscaleX : 0 ≤ w / m := div_nonneg hw hm
  have hscaleY : 0 ≤ h / m := div_nonneg hh hm
  have hwm : 0 ≤ s.getD 2 0 * m := mul_nonneg hv2.1 hm
  have hhm : 0 ≤ s.getD 3 0 * m := mul_nonneg hv3.1 hm
  refine ⟨?_, ?_, mul_nonneg hv4.1 hvc.1, ?_, person_index_eq_zero hperson⟩
  · simp only [mapBox]
    exact mul_le_mul_of_nonneg_right (by linarith) hscaleX
  · simp only [mapBox]
    have h30 : 0 ≤ s.getD 3 0 := hv3.1
    exact mul_le_mul_of_nonneg_right (by linarith) hscaleY
  · exact mul_le_one₀ hv4.2 hvc.1 hvc.2

/-- Claim C6: with every tensor value in `[0, 1]` and nonnegative
`originalWidth`, `originalHeight` and `modelInputSize`, every returned
detection has an ordered box (`x1 ≤ x2`, `y1 ≤ y2`), a confidence in
`[0, 1]`, and a classId that is a valid index into the 80-entry label
table. -/
theorem c6_shape_invariant (data : List ℚ) (w h t iou m : ℚ)
    (hdata : ∀ v ∈ data, 0 ≤ v ∧ v ≤ 1) (hw : 0 ≤ w) (hh : 0 ≤ h) (hm : 0 ≤ m) :
    ∀ d ∈ parseYOLOv8Output data w h t iou m,
      d.box.x1 ≤ d.box.x2 ∧ d.box.y1 ≤ d.box.y2 ∧
        0 ≤ d.confidence ∧ d.confidence ≤ 1 ∧ d.classId < CLASS_LABELS.length := by
  intro d hd
  obtain ⟨c, hc, hb, hcf, hid⟩ := detection_from_candidate hd
  obtain ⟨s, hsmem, hps⟩ := List.mem_filterMap.mp hc
  have hsub : ∀ v ∈ s, 0 ≤ v ∧ v ≤ 1 := fun v hv => hdata v (recordSlices_subset hsmem v hv)
  obtain ⟨h1, h2, h3, h4, h5⟩ := processRecord_invariants hps hsub hw hh hm
  rw [hb, hcf, hid]
  exact ⟨h1, h2, h3, h4, by rw [h5]; decide⟩

/-- Witness for `c6_shape_invariant`: the scenario tensor `recC1` satisfies
every hypothesis, and the invariant holds at the concrete detection its
output contains. -/
theorem c6_shape_invariant_witness :
    (⟨⟨512, 384, 768, 9603/20⟩, 1, 0⟩ : Detection) ∈
        parseYOLOv8Output recC1 1280 960 (1/4) (9/20) 640 ∧
      ((⟨⟨512, 384, 768, 9603/20⟩, 1, 0⟩ : Detection).box.x1 ≤
          (⟨⟨512, 384, 768, 9603/20⟩, 1, 0⟩ : Detection).box.x2 ∧
        (⟨⟨512, 384, 768, 9603/20⟩, 1, 0⟩ : Detection).box.y1 ≤
          (⟨⟨512, 384, 768, 9603/20⟩, 1, 0⟩ : Detection).box.y2 ∧
        0 ≤ (⟨⟨512, 384, 768, 9603/20⟩, 1, 0⟩ : Detection).confidence ∧
        (⟨⟨512, 384, 768, 9603/20⟩, 1, 0⟩ : Detection).confidence ≤ 1 ∧
        (⟨⟨512, 384, 768, 9603/20⟩, 1, 0⟩ : Detection).classId <
          CLASS_LABELS.length) := by
  have hmem : (⟨⟨512, 384, 768, 9603/20⟩, 1, 0⟩ : Detection) ∈
      parseYOLOv8Output recC1 1280 960 (1/4) (9/20) 640 := by
    have heq : parseYOLOv8Output recC1 1280 960 (1/4) (9/20) 640 =
        [⟨⟨512, 384, 768, 9603/20⟩, 1, 0⟩] := by with_unfolding_all rfl
    rw [heq]
    exact List.mem_singleton.mpr rfl
  exact ⟨hmem, c6_shape_invariant recC1 1280 960 (1/4) (9/20) 640
    (by with_unfolding_all decide) (by with_unfolding_all decide)
    (by with_unfolding_all decide) (by with_unfolding_all decide) _ hmem⟩

/-- Claim C9: every returned detection has classId 0, the index of
`"person"` in the label table — the class of interest is hardcoded inside
`parseYOLOv8Output`, so no other classId can ever be emitted. -/
theorem c9_person_only (data : List ℚ) (w h t iou m : ℚ) :
    ∀ d ∈ parseYOLOv8Output data w h t iou m,
      d.classId = 0 ∧ CLASS_LABELS.getD d.classId "" = "person" := by
  intro d hd
  obtain ⟨c, hc, _, _, hid⟩ := detection_from_candidate hd
  obtain ⟨s, _, hps⟩ := List.mem_filterMap.mp hc
  obtain ⟨_, _, hperson, rfl⟩ := processRecord_some hps
  have h0 : recClassId s = 0 := person_index_eq_zero hperson
  rw [hid]
  refine ⟨h0, ?_⟩
  rw [show (mapBox w h m s, recConfidence s, recClassId s).2.2 = recClassId s from rfl, h0]
  decide

/-- Witness for `c9_person_only` at the degenerate-box tensor `recC3`, whose
output contains the detection with box `[320, 320, 320, 320]`. -/
theorem c9_person_only_witness :
    (⟨⟨320, 320, 320, 320⟩, 1, 0⟩ : Detection) ∈
        parseYOLOv8Output recC3 640 640 (1/4) (9/20) 640 ∧
      (⟨⟨320, 320, 320, 320⟩, 1, 0⟩ : Detection).classId = 0 := by
  have hmem : (⟨⟨320, 320, 320, 320⟩, 1, 0⟩ : Detection) ∈
      parseYOLOv8Output recC3 640 640 (1/4) (9/20) 640 := by
    have heq : parseYOLOv8Output recC3 640 640 (1/4) (9/20) 640 =
        [⟨⟨320, 320, 320, 320⟩, 1, 0⟩] := by with_unfolding_all rfl
    rw [heq]
    exact List.mem_singleton.mpr rfl
  exact ⟨hmem, (c9_person_only recC3 640 640 (1/4) (9/20) 640 _ hmem).1⟩

/-- Suppressed-set-free reformulation of the NMS loop used for reasoning:
instead of carrying the suppressed set forward, remove suppressed indices
from the remaining list eagerly.  `nmsGo_eq_nmsGoF` proves it equal to the
faithful loop. -/
def nmsGoF (boxes : List Box) (confs : List ℚ) (iouThreshold : ℚ) :
    List Nat → List SelEntry
  | [] => []
  | idx :: rest =>
    ⟨boxes.getD idx defBox, confs.getD idx 0, idx⟩ ::
      nmsGoF boxes confs iouThreshold
        (rest.filter (fun j =>
          decide (¬ iouThreshold <
            calculateIOU (boxes.getD idx defBox) (boxes.getD j defBox))))
termination_by l => l.length
decreasing_by
  simp only [List.length_cons]
  exact Nat.lt_succ_of_le (List.length_filter_le _ _)

/-- Greedy suppression on the bare sequence of boxes, in visit order. -/
def greedyBoxes (t : ℚ) : List Box → List Box
  | [] => []
  | b :: rest =>
    b :: greedyBoxes t (rest.filter (fun b2 => decide (¬ t < calculateIOU b b2)))
termination_by l => l.length
decreasing_by
  simp only [List.length_cons]
  exact Nat.lt_succ_of_le (List.length_filter_le _ _)

theorem nmsGo_eq_nmsGoF (B : List Box) (C : List ℚ) (t : ℚ) :
    ∀ (L sup : List Nat),
      nmsGo B C t L sup = nmsGoF B C t (L.filter (fun i => decide (i ∉ sup)))
  | [], _ => by simp [nmsGo, nmsGoF]
  | idx :: rest, sup => by
    rw [nmsGo, List.filter_cons]
    by_cases hs : idx ∈ sup
    · rw [if_pos hs, if_neg (by simpa using hs)]
      exact nmsGo_eq_nmsGoF B C t rest sup
    · rw [if_neg hs, if_pos (by simpa using hs), nmsGoF]
      have hl : rest.filter (fun i => decide (i ∉ sup ++ rest.filter (fun j =>
            decide (t < calculateIOU (B.getD idx defBox) (B.getD j defBox))))) =
          (rest.filter (fun i => decide (i ∉ sup))).filter (fun j =>
            decide (¬ t < calculateIOU (B.getD idx defBox) (B.getD j defBox))) := by
        rw [List.filter_filter]
        apply List.filter_congr
        intro j hj
        have hiff : (j ∉ sup ++ rest.filter (fun j =>
              decide (t < calculateIOU (B.getD idx defBox) (B.getD j defBox)))) ↔
            ((¬ t < calculateIOU (B.getD idx defBox) (B.getD j defBox)) ∧
              (j ∉ sup)) := by
          simp only [List.mem_append, List.mem_filter, not_or, decide_eq_true_eq, hj,
            true_and]
          tauto
        rw [decide_eq_decide.mpr hiff, Bool.decide_and]
      rw [nmsGo_eq_nmsGoF B C t rest
          (sup ++ rest.filter (fun j =>
            decide (t < calculateIOU (B.getD idx defBox) (B.getD j defBox)))), hl]

theorem nmsGoF_length (B : List Box) (C : List ℚ) (t : ℚ) :
    ∀ L : List Nat, (nmsGoF B C t L).length =
      (greedyBoxes t (L.map (fun i => B.getD i defBox))).length
  | [] => by simp [nmsGoF, greedyBoxes]
  | idx :: rest => by
    rw [nmsGoF, List.map_cons, greedyBoxes, List.length_cons, List.length_cons,
      nmsGoF_length B C t (rest.filter (fun j =>
        decide (¬ t < calculateIOU (B.getD idx defBox) (B.getD j defBox))))]
    have hfm : (rest.map (fun i => B.getD i defBox)).filter
          (fun b2 => decide (¬ t < calculateIOU (B.getD idx defBox) b2)) =
        (rest.filter (fun j =>
          decide (¬ t < calculateIOU (B.getD idx defBox) (B.getD j defBox)))).map
            (fun i => B.getD i defBox) := by
      rw [List.filter_map]
      rfl
    rw [hfm]
termination_by L => L.length
decreasing_by
  simp only [List.length_cons]
  exact Nat.lt_succ_of_le (List.length_filter_le _ _)

theorem greedyBoxes_length_append (t : ℚ) :
    ∀ xs ys : List Box,
      (greedyBoxes t xs).length ≤ (greedyBoxes t (xs ++ ys)).length
  | [], ys => by simp [greedyBoxes]
  | b :: xs, ys => by
    rw [List.cons_append, greedyBoxes, greedyBoxes, List.length_cons, List.length_cons,
      List.filter_append]
    exact Nat.succ_le_succ (greedyBoxes_length_append t
      (xs.filter (fun b2 => decide (¬ t < calculateIOU b b2)))
      (ys.filter (fun b2 => decide (¬ t < calculateIOU b b2))))
termination_by xs => xs.length
decreasing_by
  simp only [List.length_cons]
  exact Nat.lt_succ_of_le (List.length_filter_le _ _)

/-- Keys (confidences) in weakly descending order. -/
def keysSortedDesc {α : Type} (l : List (ℚ × α)) : Prop :=
  l.Pairwise (fun p q => q.1 ≤ p.1)

theorem insertDesc_mem_iff {α : Type} {p r : ℚ × α} {l : List (ℚ × α)} :
    r ∈ insertDesc p l ↔ r = p ∨ r ∈ l :=
  ⟨fun h => (List.mem_cons.mp ((insertDesc_perm p l).mem_iff.mp h)),
   fun h => (insertDesc_perm p l).mem_iff.mpr (List.mem_cons.mpr h)⟩

theorem insertDesc_sorted {α : Type} (p : ℚ × α) :
    ∀ {l : List (ℚ × α)}, keysSortedDesc l → keysSortedDesc (insertDesc p l)
  | [], _ => List.pairwise_singleton _ p
  | q :: qs, h => by
    obtain ⟨hq, hqs⟩ := List.pairwise_cons.mp h
    rw [insertDesc]
    by_cases hlt : p.1 < q.1
    · rw [if_pos hlt]
      refine List.pairwise_cons.mpr ⟨?_, insertDesc_sorted p hqs⟩
      intro r hr
      rcases insertDesc_mem_iff.mp hr with rfl | hr
      · exact le_of_lt hlt
      · exact hq r hr
    · rw [if_neg hlt]
      refine List.pairwise_cons.mpr ⟨?_, h⟩
      intro r hr
      rcases List.mem_cons.mp hr with rfl | hr
      · exact not_lt.mp hlt
      · exact le_trans (hq r hr) (not_lt.mp hlt)

theorem isortP_sorted {α : Type} : ∀ l : List (ℚ × α), keysSortedDesc (isortP l)
  | [] => List.Pairwise.nil
  | p :: ps => insertDesc_sorted p (isortP_sorted ps)

theorem insertDesc_eq_cons {α : Type} (p : ℚ × α) :
    ∀ l : List (ℚ × α), (∀ q ∈ l, q.1 ≤ p.1) → insertDesc p l = p :: l
  | [], _ => rfl
  | q :: qs, h => by
    rw [insertDesc, if_neg (not_lt.mpr (h q (List.mem_cons_self q qs)))]

theorem isortP_eq_self {α : Type} :
    ∀ {l : List (ℚ × α)}, keysSortedDesc l → isortP l = l
  | [], _ => rfl
  | p :: ps, h => by
    obtain ⟨hp, hps⟩ := List.pairwise_cons.mp h
    rw [isortP, isortP_eq_self hps, insertDesc_eq_cons p ps hp]

theorem filter_insertDesc {α : Type} (q : (ℚ × α) → Bool) (p : ℚ × α) :
    ∀ {l : List (ℚ × α)}, keysSortedDesc l →
      (insertDesc p l).filter q =
        if q p then insertDesc p (l.filter q) else l.filter q
  | [], _ => by
    by_cases hq : q p = true
    · rw [if_pos hq]
      show [p].filter q = insertDesc p ([].filter q)
      rw [List.filter_cons, if_pos hq, List.filter_nil]
      rfl
    · rw [if_neg hq]
      show [p].filter q = [].filter q
      rw [List.filter_cons, if_neg hq]
  | r :: rs, h => by
    obtain ⟨hr, hrs⟩ := List.pairwise_cons.mp h
    by_cases hlt : p.1 < r.1
    · rw [insertDesc, if_pos hlt, List.filter_cons]
      by_cases hqr : q r = true
      · rw [if_pos hqr, filter_insertDesc q p hrs, List.filter_cons, if_pos hqr]
        by_cases hqp : q p = true
        · rw [if_pos hqp, if_pos hqp, insertDesc, if_pos hlt]
        · rw [if_neg hqp, if_neg hqp]
      · rw [if_neg hqr, filter_insertDesc q p hrs, List.filter_cons, if_neg hqr]
    · rw [insertDesc, if_neg hlt, List.filter_cons]
      by_cases hqp : q p = true
      · have hall : ∀ x ∈ (r :: rs).filter q, x.1 ≤ p.1 := by
          intro x hx
          rcases List.mem_cons.mp (List.mem_of_mem_filter hx) with rfl | hx2
          · exact not_lt.mp hlt
          · exact le_trans (hr x hx2) (not_lt.mp hlt)
        rw [if_pos hqp, if_pos hqp, insertDesc_eq_cons p _ hall]
      · rw [if_neg hqp, if_neg hqp]

theorem filter_isortP {α : Type} (q : (ℚ × α) → Bool) :
    ∀ l : List (ℚ × α), (isortP l).filter q = isortP (l.filter q)
  | [] => rfl
  | p :: ps => by
    rw [isortP, filter_insertDesc q p (isortP_sorted ps), filter_isortP q ps,
      List.filter_cons]
    by_cases hqp : q p = true
    · rw [if_pos hqp, if_pos hqp, isortP]
    · rw [if_neg hqp, if_neg hqp]

theorem filter_gt_isPrefix {α : Type} (c : ℚ) :
    ∀ {l : List (ℚ × α)}, keysSortedDesc l →
      (l.filter (fun p => decide (c < p.1))) <+: l
  | [], _ => List.nil_prefix
  | p :: ps, h => by
    obtain ⟨hp, hps⟩ := List.pairwise_cons.mp h
    rw [List.filter_cons]
    by_cases hc : c < p.1
    · rw [if_pos (by simpa using hc)]
      obtain ⟨t, ht⟩ := filter_gt_isPrefix c hps
      exact ⟨t, by rw [List.cons_append, ht]⟩
    · rw [if_neg (by simpa using hc)]
      have hnil : ps.filter (fun p => decide (c < p.1)) = [] := by
        rw [List.filter_eq_nil_iff]
        intro x hx
        simp only [decide_eq_true_eq]
        exact fun hcx => hc (lt_of_lt_of_le hcx (hp x hx))
      rw [hnil]
      exact List.nil_prefix

theorem withIndices_map_fst : ∀ (cs : List ℚ) (k : Nat),
    (withIndices cs k).map (fun p => p.1) = cs
  | [], _ => rfl
  | c :: cs, k => by rw [withIndices, List.map_cons, withIndices_map_fst cs (k + 1)]

theorem drop_eq_getD_cons {α : Type} (dflt : α) :
    ∀ (l : List α) (k : Nat), k < l.length → l.drop k = l.getD k dflt :: l.drop (k + 1)
  | x :: xs, 0, _ => rfl
  | x :: xs, k + 1, h => by
    rw [List.drop_succ_cons, drop_eq_getD_cons dflt xs k (by simpa using h),
      List.getD_cons_succ]
    rfl

theorem withIndices_map_getD {β : Type} (B : List β) (dflt : β) :
    ∀ (C : List ℚ) (k : Nat), k + C.length ≤ B.length →
      (withIndices C k).map (fun p => (p.1, B.getD p.2 dflt)) = C.zip (B.drop k)
  | [], k, _ => by simp [withIndices]
  | c :: cs, k, h => by
    have hlen : k < B.length := by
      simp only [List.length_cons] at h
      omega
    rw [withIndices, List.map_cons,
      withIndices_map_getD B dflt cs (k + 1)
        (by simp only [List.length_cons] at h; omega),
      drop_eq_getD_cons dflt B k hlen, List.zip_cons_cons]

theorem insertDesc_map_payload {α β : Type} (g : α → β) (p : ℚ × α) :
    ∀ l : List (ℚ × α),
      (insertDesc p l).map (fun r => (r.1, g r.2)) =
        insertDesc (p.1, g p.2) (l.map (fun r => (r.1, g r.2)))
  | [] => rfl
  | q :: qs => by
    rw [insertDesc]
    by_cases h : p.1 < q.1
    · rw [if_pos h, List.map_cons, insertDesc_map_payload g p qs, List.map_cons,
        insertDesc, if_pos h]
    · rw [if_neg h]
      simp only [List.map_cons]
      rw [insertDesc, if_neg (show ¬ (p.1, g p.2).1 < (q.1, g q.2).1 from h)]

theorem isortP_map_payload {α β : Type} (g : α → β) :
    ∀ l : List (ℚ × α),
      (isortP l).map (fun r => (r.1, g r.2)) =
        isortP (l.map (fun r => (r.1, g r.2)))
  | [] => rfl
  | p :: ps => by
    rw [isortP, insertDesc_map_payload g p (isortP ps), isortP_map_payload g ps,
      List.map_cons, isortP]

/-- The (confidence, box) pairs of the candidate list, sorted stably by
descending confidence, then projected to the boxes: the sequence of boxes
the NMS loop visits. -/
def sortedBoxSeq (cands : List (Box × ℚ × Nat)) : List Box :=
  (isortP (cands.map (fun c => (c.2.1, c.1)))).map (fun p => p.2)

theorem sortIndices_map_getD (cands : List (Box × ℚ × Nat)) :
    (sortIndices (cands.map (fun c => c.2.1))).map
        (fun i => (cands.map (fun c => c.1)).getD i defBox) =
      sortedBoxSeq cands := by
  set B := cands.map (fun c => c.1) with hB
  set C := cands.map (fun c => c.2.1) with hC
  have hlen : C.length = B.length := by rw [hB, hC]; simp
  have h2 : (withIndices C 0).map (fun p => (p.1, B.getD p.2 defBox)) = C.zip B := by
    have := withIndices_map_getD B defBox C 0 (by omega)
    simpa using this
  have h3 : C.zip B = cands.map (fun c => (c.2.1, c.1)) := by
    rw [hB, hC, List.zip_map']
  calc (sortIndices C).map (fun i => B.getD i defBox)
      = (isortP (withIndices C 0)).map ((fun i => B.getD i defBox) ∘ (fun p => p.2)) := by
        rw [sortIndices, List.map_map]
    _ = ((isortP (withIndices C 0)).map (fun p => (p.1, B.getD p.2 defBox))).map
          (fun r => r.2) := by rw [List.map_map]; rfl
    _ = (isortP ((withIndices C 0).map (fun p => (p.1, B.getD p.2 defBox)))).map
          (fun r => r.2) :=
        congrArg (List.map (fun r => r.2))
          (isortP_map_payload (fun i => B.getD i defBox) (withIndices C 0))
    _ = sortedBoxSeq cands := by rw [h2, h3, sortedBoxSeq]

/-- The length of the NMS result on the parallel projections of a candidate
list equals the length of the greedy suppression run on the sorted box
sequence. -/
theorem nms_length_eq_greedy (cands : List (Box × ℚ × Nat)) (iouT : ℚ) :
    (nonMaxSuppression (cands.map (fun c => c.1)) (cands.map (fun c => c.2.1))
        iouT).length =
      (greedyBoxes iouT (sortedBoxSeq cands)).length := by
  rw [nonMaxSuppression]
  by_cases hemp : (cands.map (fun c => c.1)).isEmpty
  · have hnil : cands = [] := by
      cases cands with
      | nil => rfl
      | cons c cs => simp at hemp
    rw [if_pos hemp, hnil]
    simp [sortedBoxSeq, isortP, greedyBoxes]
  · rw [if_neg hemp, nmsGo_eq_nmsGoF]
    have hfil : (sortIndices (cands.map (fun c => c.2.1))).filter
          (fun i => decide (i ∉ ([] : List Nat))) =
        sortIndices (cands.map (fun c => c.2.1)) := by
      rw [List.filter_eq_self]
      intro a _
      simp
    rw [hfil, nmsGoF_length, sortIndices_map_getD]

theorem processRecord_threshold {t1 t2 : ℚ} (hle : t1 ≤ t2) (w h m : ℚ)
    (s : List ℚ) (c : Box × ℚ × Nat) :
    processRecord t2 w h m s = some c ↔
      (processRecord t1 w h m s = some c ∧ decide (t2 < c.2.1) = true) := by
  constructor
  · intro hc
    obtain ⟨hlen, hconf, hperson, rfl⟩ := processRecord_some hc
    refine ⟨?_, by simpa using hconf⟩
    rw [processRecord, if_neg (by omega),
      if_pos ⟨lt_of_le_of_lt hle hconf, hperson⟩]
  · rintro ⟨hc, ht2⟩
    obtain ⟨hlen, _, hperson, rfl⟩ := processRecord_some hc
    simp only [decide_eq_true_eq] at ht2
    rw [processRecord, if_neg (by omega), if_pos ⟨by simpa using ht2, hperson⟩]

theorem filterMap_filter_of_iff {α β : Type} (f1 f2 : α → Option β) (p : β → Bool)
    (hf : ∀ x c, f2 x = some c ↔ (f1 x = some c ∧ p c = true)) :
    ∀ l : List α, l.filterMap f2 = (l.filterMap f1).filter p
  | [] => rfl
  | x :: xs => by
    rw [List.filterMap_cons, List.filterMap_cons]
    cases hfx : f1 x with
    | none =>
      have h2 : f2 x = none := by
        cases hfx2 : f2 x with
        | none => rfl
        | some c =>
          have := ((hf x c).mp hfx2).1
          rw [hfx] at this
          exact Option.noConfusion this
      rw [h2, filterMap_filter_of_iff f1 f2 p hf xs]
    | some c =>
      by_cases hpc : p c = true
      · have h2 : f2 x = some c := (hf x c).mpr ⟨hfx, hpc⟩
        rw [h2, List.filter_cons, if_pos hpc, filterMap_filter_of_iff f1 f2 p hf xs]
      · have h2 : f2 x = none := by
          cases hfx2 : f2 x with
          | none => rfl
          | some c2 =>
            obtain ⟨h1, hp2⟩ := (hf x c2).mp hfx2
            rw [hfx] at h1
            cases Option.some.inj h1
            exact absurd hp2 hpc
        rw [h2, List.filter_cons, if_neg hpc, filterMap_filter_of_iff f1 f2 p hf xs]

theorem candidates_filter {data : List ℚ} {t1 t2 : ℚ} (w h m : ℚ) (hle : t1 ≤ t2) :
    candidates data t2 w h m =
      (candidates data t1 w h m).filter (fun c => decide (t2 < c.2.1)) :=
  filterMap_filter_of_iff (processRecord t1 w h m) (processRecord t2 w h m)
    (fun c => decide (t2 < c.2.1))
    (fun s c => processRecord_threshold hle w h m s c) (recordSlices data)

theorem sortedBoxSeq_filter_prefix (cands : List (Box × ℚ × Nat)) (t2 : ℚ) :
    sortedBoxSeq (cands.filter (fun c => decide (t2 < c.2.1))) <+:
      sortedBoxSeq cands := by
  have hcomm : (cands.filter (fun c => decide (t2 < c.2.1))).map
        (fun c => (c.2.1, c.1)) =
      (cands.map (fun c => (c.2.1, c.1))).filter (fun p => decide (t2 < p.1)) := by
    rw [List.filter_map]
    rfl
  rw [sortedBoxSeq, hcomm, ← filter_isortP]
  exact (filter_gt_isPrefix t2 (isortP_sorted _)).map (fun p => p.2)

/-- Claim C4: threshold monotonicity of the whole pipeline — for a fixed
tensor, image dimensions, IOU threshold and model input size, raising the
confidence threshold never increases the number of returned detections. -/
theorem c4_threshold_monotonicity (data : List ℚ) (w h iou m t1 t2 : ℚ)
    (hle : t1 ≤ t2) :
    (parseYOLOv8Output data w h t2 iou m).length ≤
      (parseYOLOv8Output data w h t1 iou m).length := by
  simp only [parseYOLOv8Output, List.length_map]
  rw [nms_length_eq_greedy, nms_length_eq_greedy,
    candidates_filter w h m hle]
  obtain ⟨rest, hrest⟩ := sortedBoxSeq_filter_prefix (candidates data t1 w h m) t2
  rw [← hrest]
  exact greedyBoxes_length_append iou _ rest

/-- A 168-value tensor: two overlapping person candidates with confidences
0.9 and 0.6. -/
def dataC4 : List ℚ :=
  ([1/2, 1/2, 1/2, 1/2, 9/10, 1] ++ List.replicate 78 0) ++
    ([1/2, 1/2, 2/5, 2/5, 3/5, 1] ++ List.replicate 78 0)

/-- Witness for `c4_threshold_monotonicity`: raising the threshold from 0.25
to 0.7 on a concrete two-candidate tensor does not increase the count. -/
theorem c4_threshold_monotonicity_witness :
    (parseYOLOv8Output dataC4 640 640 (7/10) (9/20) 640).length ≤
      (parseYOLOv8Output dataC4 640 640 (1/4) (9/20) 640).length :=
  c4_threshold_monotonicity dataC4 640 640 (9/20) 640 (1/4) (7/10)
    (by with_unfolding_all decide)

theorem nmsGo_conf_sublist (B : List Box) (C : List ℚ) (t : ℚ) :
    ∀ (L sup : List Nat),
      ((nmsGo B C t L sup).map (fun e => e.confidence)).Sublist
        (L.map (fun i => C.getD i 0))
  | [], _ => List.Sublist.refl _
  | idx :: rest, sup => by
    rw [nmsGo, List.map_cons]
    by_cases hs : idx ∈ sup
    · rw [if_pos hs]
      exact (nmsGo_conf_sublist B C t rest sup).cons _
    · rw [if_neg hs, List.map_cons]
      exact (nmsGo_conf_sublist B C t rest _).cons₂ _

theorem mem_isortP_withIndices_getD {C : List ℚ} {p : ℚ × Nat}
    (hp : p ∈ isortP (withIndices C 0)) : C.getD p.2 0 = p.1 := by
  obtain ⟨_, _, h3⟩ := withIndices_mem ((isortP_perm _).mem_iff.mp hp)
  simpa using h3

theorem sortIndices_conf_sorted (C : List ℚ) :
    ((sortIndices C).map (fun i => C.getD i 0)).Pairwise (fun a b => b ≤ a) := by
  rw [sortIndices, List.map_map, List.pairwise_map]
  have hsorted : (withIndices C 0 |> isortP).Pairwise (fun p q => q.1 ≤ p.1) :=
    isortP_sorted (withIndices C 0)
  refine hsorted.imp_of_mem ?_
  intro a b ha hb hr
  have h1 := mem_isortP_withIndices_getD ha
  have h2 := mem_isortP_withIndices_getD hb
  dsimp only [Function.comp]
  rw [h1, h2]
  exact hr

theorem nmsGo_pairwise_iou (B : List Box) (C : List ℚ) (t : ℚ) :
    ∀ (L sup : List Nat),
      (nmsGo B C t L sup).Pairwise
        (fun e1 e2 => calculateIOU e1.box e2.box ≤ t)
  | [], _ => List.Pairwise.nil
  | idx :: rest, sup => by
    rw [nmsGo]
    by_cases hs : idx ∈ sup
    · rw [if_pos hs]
      exact nmsGo_pairwise_iou B C t rest sup
    · rw [if_neg hs]
      refine List.pairwise_cons.mpr ⟨?_, nmsGo_pairwise_iou B C t rest _⟩
      intro e2 he2
      obtain ⟨h1, h2, h3, _⟩ := nmsGo_mem he2
      have hnot : ¬ (t < calculateIOU (B.getD idx defBox)
          (B.getD e2.originalIndex defBox)) := by
        intro hcon
        exact h2 (List.mem_append.mpr (Or.inr
          (List.mem_filter.mpr ⟨h1, by simpa using hcon⟩)))
      show calculateIOU (B.getD idx defBox) e2.box ≤ t
      rw [h3]
      exact not_lt.mp hnot

theorem nmsGoF_no_suppress (B : List Box) (C : List ℚ) (t : ℚ) :
    ∀ L : List Nat,
      L.Pairwise (fun i j =>
        calculateIOU (B.getD i defBox) (B.getD j defBox) ≤ t) →
      nmsGoF B C t L = L.map (fun i => ⟨B.getD i defBox, C.getD i 0, i⟩)
  | [], _ => by simp [nmsGoF]
  | idx :: rest, h => by
    obtain ⟨hhead, htail⟩ := List.pairwise_cons.mp h
    rw [nmsGoF]
    have hfil : rest.filter (fun j => decide (¬ t <
        calculateIOU (B.getD idx defBox) (B.getD j defBox))) = rest := by
      rw [List.filter_eq_self]
      intro j hj
      simpa using not_lt.mpr (hhead j hj)
    rw [hfil, nmsGoF_no_suppress B C t rest htail, List.map_cons]

theorem withIndices_map_snd : ∀ (cs : List ℚ) (k : Nat),
    (withIndices cs k).map (fun p => p.2) = List.range' k cs.length
  | [], k => by simp [withIndices]
  | c :: cs, k => by
    rw [withIndices, List.map_cons, withIndices_map_snd cs (k + 1), List.length_cons,
      List.range'_succ]

/-- Any parallel box/confidence pair with descending confidences and no
above-threshold overlap between an earlier and a later box is a fixed point
of `nonMaxSuppression` up to the selected boxes and confidences. -/
theorem nms_fixed_point {B2 : List Box} {C2 : List ℚ} {t : ℚ}
    (hlen : C2.length = B2.length)
    (hsorted : C2.Pairwise (fun a b => b ≤ a))
    (hpair : ∀ (i j : Nat) (hi : i < B2.length) (hj : j < B2.length), i < j →
      calculateIOU (B2.get ⟨i, hi⟩) (B2.get ⟨j, hj⟩) ≤ t) :
    (nonMaxSuppression B2 C2 t).map (fun e => e.box) = B2 ∧
      (nonMaxSuppression B2 C2 t).map (fun e => e.confidence) = C2 := by
  rw [nonMaxSuppression]
  by_cases hemp : B2.isEmpty
  · have hB : B2 = [] := by
      cases B2 with
      | nil => rfl
      | cons b bs => simp at hemp
    have hC : C2 = [] := by
      rw [hB] at hlen
      exact List.length_eq_zero.mp (by simpa using hlen)
    rw [if_pos hemp, hB, hC]
    constructor <;> rfl
  · rw [if_neg hemp]
    have hkeys : (withIndices C2 0).Pairwise (fun p q => q.1 ≤ p.1) := by
      have hmapped : ((withIndices C2 0).map (fun p => p.1)).Pairwise
          (fun a b => b ≤ a) := by
        rw [withIndices_map_fst]
        exact hsorted
      exact (List.pairwise_map.mp hmapped)
    have hsi : sortIndices C2 = (withIndices C2 0).map (fun p => p.2) := by
      rw [Eq.symm (isortP_eq_self hkeys), sortIndices]
    have hrange : (withIndices C2 0).map (fun p => p.2) = List.range' 0 C2.length :=
      withIndices_map_snd C2 0
    have hLpair : ((withIndices C2 0).map (fun p => p.2)).Pairwise
        (fun i j => calculateIOU (B2.getD i defBox) (B2.getD j defBox) ≤ t) := by
      rw [hrange, List.pairwise_iff_getElem]
      intro i j hi hj hij
      simp only [List.getElem_range', List.length_range'] at hi hj ⊢
      have hi2 : i < B2.length := by omega
      have hj2 : j < B2.length := by omega
      have hgd : ∀ (k : Nat) (hk : k < B2.length), B2.getD k defBox = B2.get ⟨k, hk⟩ := by
        intro k hk
        rw [List.getD_eq_getElem?_getD, List.getElem?_eq_getElem hk]
        rfl
      rw [Nat.zero_add, Nat.one_mul, Nat.zero_add, Nat.one_mul, hgd i hi2, hgd j hj2]
      exact hpair i j hi2 hj2 (by omega)
    rw [nmsGo_eq_nmsGoF]
    have hfilid : ((sortIndices C2).filter (fun i => decide (i ∉ ([] : List Nat)))) =
        sortIndices C2 := by
      rw [List.filter_eq_self]
      intro a _
      simp
    rw [hfilid, hsi, nmsGoF_no_suppress B2 C2 t _ hLpair, List.map_map, List.map_map]
    constructor
    · have : (withIndices C2 0).map (fun p => B2.getD p.2 defBox) = B2 := by
        have hz := withIndices_map_getD B2 defBox C2 0 (by omega)
        have hsnd : ((withIndices C2 0).map
            (fun p => (p.1, B2.getD p.2 defBox))).map (fun r => r.2) =
              (C2.zip B2).map Prod.snd := by rw [hz]; rfl
        rw [List.map_map] at hsnd
        have := List.map_snd_zip C2 B2 (by omega)
        rw [this] at hsnd
        exact hsnd
      simpa [Function.comp] using this
    · have : (withIndices C2 0).map (fun p => C2.getD p.2 0) = C2 := by
        have hz := withIndices_map_getD C2 0 C2 0 (by omega)
        have hsnd : ((withIndices C2 0).map
            (fun p => (p.1, C2.getD p.2 0))).map (fun r => r.2) =
              (C2.zip C2).map Prod.snd := by rw [hz]; rfl
        rw [List.map_map] at hsnd
        have := List.map_snd_zip C2 C2 (by omega)
        rw [this] at hsnd
        exact hsnd
      simpa [Function.comp] using this

/-- Claim C5: NMS idempotence — for every list of boxes with parallel
confidences and every IOU threshold, re-running `nonMaxSuppression` on the
boxes and confidences it selected, with the same threshold, selects exactly
the same boxes and confidences in the same order. -/
theorem c5_nms_idempotent (boxes : List Box) (confidences : List ℚ)
    (iouThreshold : ℚ) :
    (nonMaxSuppression
        ((nonMaxSuppression boxes confidences iouThreshold).map (fun e => e.box))
        ((nonMaxSuppression boxes confidences iouThreshold).map
          (fun e => e.confidence))
        iouThreshold).map (fun e => e.box) =
      (nonMaxSuppression boxes confidences iouThreshold).map (fun e => e.box) ∧
    (nonMaxSuppression
        ((nonMaxSuppression boxes confidences iouThreshold).map (fun e => e.box))
        ((nonMaxSuppression boxes confidences iouThreshold).map
          (fun e => e.confidence))
        iouThreshold).map (fun e => e.confidence) =
      (nonMaxSuppression boxes confidences iouThreshold).map
        (fun e => e.confidence) := by
  have hlen : ((nonMaxSuppression boxes confidences iouThreshold).map
      (fun e => e.confidence)).length =
        ((nonMaxSuppression boxes confidences iouThreshold).map
          (fun e => e.box)).length := by
    rw [List.length_map, List.length_map]
  have hpairsel : (nonMaxSuppression boxes confidences iouThreshold).Pairwise
      (fun e1 e2 => calculateIOU e1.box e2.box ≤ iouThreshold) := by
    rw [nonMaxSuppression]
    by_cases hemp : boxes.isEmpty
    · rw [if_pos hemp]
      exact List.Pairwise.nil
    · rw [if_neg hemp]
      exact nmsGo_pairwise_iou boxes confidences iouThreshold _ _
  have hsorted : ((nonMaxSuppression boxes confidences iouThreshold).map
      (fun e => e.confidence)).Pairwise (fun a b => b ≤ a) := by
    rw [nonMaxSuppression]
    by_cases hemp : boxes.isEmpty
    · rw [if_pos hemp]
      exact List.Pairwise.nil
    · rw [if_neg hemp]
      exact List.Pairwise.sublist (nmsGo_conf_sublist boxes confidences iouThreshold _ _)
        (sortIndices_conf_sorted confidences)
  have hpair : ∀ (i j : Nat)
      (hi : i < ((nonMaxSuppression boxes confidences iouThreshold).map
        (fun e => e.box)).length)
      (hj : j < ((nonMaxSuppression boxes confidences iouThreshold).map
        (fun e => e.box)).length), i < j →
      calculateIOU
          (((nonMaxSuppression boxes confidences iouThreshold).map
            (fun e => e.box)).get ⟨i, hi⟩)
          (((nonMaxSuppression boxes confidences iouThreshold).map
            (fun e => e.box)).get ⟨j, hj⟩) ≤ iouThreshold := by
    intro i j hi hj hij
    have hi2 : i < (nonMaxSuppression boxes confidences iouThreshold).length := by
      simpa using hi
    have hj2 : j < (nonMaxSuppression boxes confidences iouThreshold).length := by
      simpa using hj
    have := (List.pairwise_iff_getElem.mp hpairsel) i j hi2 hj2 hij
    simpa using this
  exact nms_fixed_point hlen hsorted hpair

theorem withIndices_length : ∀ (cs : List ℚ) (k : Nat),
    (withIndices cs k).length = cs.length
  | [], _ => rfl
  | c :: cs, k => by
    rw [withIndices, List.length_cons, withIndices_length cs (k + 1), List.length_cons]

theorem sortIndices_length (C : List ℚ) : (sortIndices C).length = C.length := by
  rw [sortIndices, List.length_map, (isortP_perm _).length_eq, withIndices_length]

theorem nmsGo_length_le (B : List Box) (C : List ℚ) (t : ℚ) :
    ∀ (L sup : List Nat), (nmsGo B C t L sup).length ≤ L.length
  | [], _ => Nat.le_refl 0
  | idx :: rest, sup => by
    rw [nmsGo]
    by_cases hs : idx ∈ sup
    · rw [if_pos hs, List.length_cons]
      exact Nat.le_succ_of_le (nmsGo_length_le B C t rest sup)
    · rw [if_neg hs, List.length_cons, List.length_cons]
      exact Nat.succ_le_succ (nmsGo_length_le B C t rest _)

/-- Claim C2 (amended): `parseYOLOv8Output` never fails — every tensor,
whatever its length, is processed totally into an ordinary detection list,
with at most one detection per 84-value record slice (`⌈length / 84⌉`
slices, the final one truncated when the length is not divisible by 84). -/
theorem c2_no_malformed_tensor (data : List ℚ) (w h t iou m : ℚ) :
    (parseYOLOv8Output data w h t iou m).length ≤ numIterations data.length := by
  simp only [parseYOLOv8Output, List.length_map]
  rw [nonMaxSuppression]
  by_cases hemp : ((candidates data t w h m).map (fun c => c.1)).isEmpty
  · rw [if_pos hemp]
    exact Nat.zero_le _
  · rw [if_neg hemp]
    calc (nmsGo ((candidates data t w h m).map (fun c => c.1))
            ((candidates data t w h m).map (fun c => c.2.1)) iou
            (sortIndices ((candidates data t w h m).map (fun c => c.2.1))) []).length
        ≤ (sortIndices ((candidates data t w h m).map (fun c => c.2.1))).length :=
          nmsGo_length_le _ _ _ _ _
      _ = (candidates data t w h m).length := by
          rw [sortIndices_length, List.length_map]
      _ ≤ (recordSlices data).length := List.length_filterMap_le _ _
      _ = numIterations data.length := by
          rw [recordSlices, List.length_map, List.length_range]

/-- Claim C10 (amended): a tensor with fewer than 6 values yields the empty
detection list (and, the model being total, no error): its only possible
record slice is too short to pass the scorer. -/
theorem c10_short_tensor_empty (data : List ℚ) (w h t iou m : ℚ)
    (hlen : data.length < 6) :
    parseYOLOv8Output data w h t iou m = [] := by
  have hcand : candidates data t w h m = [] := by
    rw [candidates, List.filterMap_eq_nil_iff]
    intro s hs
    have hslen : s.length < 6 := by
      rw [recordSlices] at hs
      obtain ⟨i, _, rfl⟩ := List.mem_map.mp hs
      have h1 : ((data.drop (i * 84)).take 84).length ≤ data.length := by
        have h2 : ((data.drop (i * 84)).take 84).length ≤ (data.drop (i * 84)).length :=
          by simp
        have h3 : (data.drop (i * 84)).length ≤ data.length := by
          rw [List.length_drop]
          omega
        omega
      omega
    rw [processRecord, if_pos hslen]
  simp only [parseYOLOv8Output, hcand]
  rfl

/-- Witness for `c10_short_tensor_empty` at the one-value tensor `[1/2]`. -/
theorem c10_short_tensor_empty_witness :
    parseYOLOv8Output [1/2] 640 640 (1/4) (9/20) 640 = [] :=
  c10_short_tensor_empty [1/2] 640 640 (1/4) (9/20) 640 (by decide)

/-- Claim C7 (amended): `calculateIOU` computes
`interArea / (area1 + area2 - interArea)` with clamped axis-aligned
overlap; it has no zero-division guard, so whenever the denominator is
nonzero the JS quotient is the finite IOU value, but when both areas are
zero the intersection and denominator are zero and the JS quotient is
undefined (`none`), not 0. -/
theorem c7_iou_unguarded (b1 b2 : Box) :
    calculateIOU b1 b2 = interArea b1 b2 / iouDenom b1 b2 ∧
      (iouDenom b1 b2 ≠ 0 → calculateIOUjs b1 b2 = some (calculateIOU b1 b2)) ∧
      (boxArea b1 = 0 → boxArea b2 = 0 →
        interArea b1 b2 = 0 ∧ iouDenom b1 b2 = 0 ∧ calculateIOUjs b1 b2 = none) := by
  refine ⟨rfl, ?_, ?_⟩
  · intro hden
    rw [calculateIOUjs, jsDiv, if_neg hden]
    rfl
  · intro h1 h2
    have hinter : interArea b1 b2 = 0 := by
      rw [boxArea] at h1
      rcases mul_eq_zero.mp h1 with hw | hh
      · have hxo : min b1.x2 b2.x2 - max b1.x1 b2.x1 ≤ 0 := by
          have ha := min_le_left b1.x2 b2.x2
          have hb := le_max_left b1.x1 b2.x1
          linarith
        rw [interArea, max_eq_left hxo, zero_mul]
      · have hyo : min b1.y2 b2.y2 - max b1.y1 b2.y1 ≤ 0 := by
          have ha := min_le_left b1.y2 b2.y2
          have hb := le_max_left b1.y1 b2.y1
          linarith
        rw [interArea, max_eq_left hyo, mul_zero]
    have hden : iouDenom b1 b2 = 0 := by
      rw [iouDenom, h1, h2, hinter]
      ring
    exact ⟨hinter, hden, by rw [calculateIOUjs, jsDiv, if_pos hden]⟩

/-- Witness for `c7_iou_unguarded`: two copies of the width-1, height-0 box
`[0, 0, 1, 0]` have zero areas, zero denominator, and an undefined JS
quotient. -/
theorem c7_iou_unguarded_witness :
    interArea ⟨0, 0, 1, 0⟩ ⟨0, 0, 1, 0⟩ = 0 ∧
      iouDenom ⟨0, 0, 1, 0⟩ ⟨0, 0, 1, 0⟩ = 0 ∧
      calculateIOUjs ⟨0, 0, 1, 0⟩ ⟨0, 0, 1, 0⟩ = none :=
  (c7_iou_unguarded ⟨0, 0, 1, 0⟩ ⟨0, 0, 1, 0⟩).2.2
    (by with_unfolding_all decide) (by with_unfolding_all decide)

end CrowdCount
